import Mathlib

/-!
Verification of the FlowFocus Pomodoro tracker core: the session state
machine in `src/app/page.tsx` and the statistics helpers in `src/lib/utils`
(`minutesToSeconds`, `todayKey`, `getWeekSeries`, `calculateStreak`), plus
the CSV export (`createCsv`).

Embedding conventions:
- TypeScript numbers that are always integral in the program (durations in
  minutes, seconds remaining, session counts) become `Int` or `Nat`.
  `timeLeft` is a `Nat` (the code floors it at 0), duration settings are
  `Int` (the utility `minutesToSeconds` must handle negative input).
- JavaScript `Date` values are used by the code only at day granularity
  (`todayKey` truncates to local midnight and formats `YYYY-MM-DD`). They
  are embedded as proleptic-Gregorian civil dates `(year, month, day)`;
  `setDate(getDate() - 1)` becomes the civil predecessor `prevDay`, and
  `todayKey` becomes `toKey`, which renders the ISO `YYYY-MM-DD` form the
  spec fixes as the day-key format (zero-padded four-digit years).
- `Record<string, number>` objects keyed by day keys become association
  lists `List (String × Nat)` in insertion order; object-spread update
  keeps an existing key in place and appends a fresh key, which `setCount`
  mirrors, and property lookup is `getCount`.
- React `useState` updater functions become pure state transformers; each
  claim is stated about the transformer that the corresponding effect or
  callback applies.
-/

/-! ## Utilities from `src/lib/utils` -/

/-- Embeds `minutesToSeconds` from `src/lib/utils`:
`Math.max(0, Math.round(minutes * 60))`. All call sites pass integral
minute values (defaults, or values clamped and rounded by the settings
form), on which `Math.round` is the identity, so the argument is `Int`. -/
def minutesToSeconds (minutes : Int) : Nat :=
  (max 0 (minutes * 60)).toNat

/-- Decimal digit character, as produced by JavaScript number-to-string
conversion for a single digit value. -/
def digitChar (n : Nat) : Char :=
  Char.ofNat (48 + n)

/-- Fuel-driven worker for `natDigits`; the fuel only serves structural
recursion and is irrelevant once it exceeds the argument. -/
def natDigitsAux : Nat → Nat → List Char
  | 0, _ => []
  | fuel + 1, n =>
      if n < 10 then [digitChar n]
      else natDigitsAux fuel (n / 10) ++ [digitChar (n % 10)]

/-- Decimal digit list of a natural number, most significant first: the
character sequence JavaScript template literals produce for a
non-negative integral number. -/
def natDigits (n : Nat) : List Char :=
  natDigitsAux (n + 1) n

/-- Fuel irrelevance for `natDigitsAux`: any fuel above the argument
computes the same digit list. -/
theorem natDigitsAux_fuel (n : Nat) : ∀ f1 f2, n < f1 → n < f2 →
    natDigitsAux f1 n = natDigitsAux f2 n := by
  induction n using Nat.strong_induction_on with
  | _ n ih =>
      intro f1 f2 h1 h2
      obtain ⟨a, rfl⟩ : ∃ a, f1 = a + 1 := ⟨f1 - 1, by omega⟩
      obtain ⟨b, rfl⟩ : ∃ b, f2 = b + 1 := ⟨f2 - 1, by omega⟩
      by_cases h10 : n < 10
      · simp [natDigitsAux, h10]
      · have hlt : n / 10 < n := Nat.div_lt_self (by omega) (by omega)
        simp only [natDigitsAux, h10, if_false]
        rw [ih (n / 10) hlt a b (by omega) (by omega)]

/-- One-step unfolding of `natDigitsAux` at positive fuel. -/
theorem natDigitsAux_succ (f n : Nat) :
    natDigitsAux (f + 1) n = if n < 10 then [digitChar n]
      else natDigitsAux f (n / 10) ++ [digitChar (n % 10)] := rfl

/-- Recurrence for `natDigits`. -/
theorem natDigits_eq (n : Nat) :
    natDigits n = if n < 10 then [digitChar n]
      else natDigits (n / 10) ++ [digitChar (n % 10)] := by
  by_cases h10 : n < 10
  · simp [natDigits, natDigitsAux, h10]
  · rw [if_neg h10]
    show natDigitsAux (n + 1) n = natDigitsAux (n / 10 + 1) (n / 10) ++ [digitChar (n % 10)]
    rw [natDigitsAux_succ, if_neg h10,
      natDigitsAux_fuel (n / 10) n (n / 10 + 1) (by omega) (by omega)]

/-- Value of a decimal digit character list, most significant first. -/
def digitsVal (l : List Char) : Nat :=
  l.foldl (fun acc c => 10 * acc + (c.toNat - 48)) 0

/-- Embeds `String(n).padStart(2, "0")` for a non-negative integral `n`. -/
def pad2 (n : Nat) : String :=
  if n < 10 then String.mk [Char.ofNat 48, digitChar n]
  else String.mk (natDigits n)

/-! ## Timer data model from `src/app/page.tsx` -/

/-- Embeds the `SessionType` union type. -/
inductive SessionType where
  | work
  | short_break
  | long_break
  deriving DecidableEq, Repr

/-- Embeds the `PomodoroSettings` interface. Duration fields are minutes. -/
structure PomodoroSettings where
  workDuration : Int
  shortBreakDuration : Int
  longBreakDuration : Int
  longBreakInterval : Int
  soundEnabled : Bool
  notificationsEnabled : Bool
  autoStartNext : Bool
  deriving DecidableEq, Repr

/-- Embeds the `defaultSettings` constant. -/
def defaultSettings : PomodoroSettings :=
  { workDuration := 25
    shortBreakDuration := 5
    longBreakDuration := 15
    longBreakInterval := 4
    soundEnabled := true
    notificationsEnabled := false
    autoStartNext := true }

/-- Embeds the `PomodoroState` interface. `timeLeft` is seconds. -/
structure PomodoroState where
  sessionType : SessionType
  timeLeft : Nat
  isRunning : Bool
  pomodorosSinceLongBreak : Nat
  deriving DecidableEq, Repr

/-- Embeds `sessionDurationMinutes` from `src/app/page.tsx`. -/
def sessionDurationMinutes (type : SessionType) (settings : PomodoroSettings) : Int :=
  match type with
  | .work => settings.workDuration
  | .short_break => settings.shortBreakDuration
  | .long_break => settings.longBreakDuration

/-- Embeds the one-second interval updater in `HomePage` (page.tsx
lines 301-320): `if (!prev.isRunning) return prev; if (prev.timeLeft <= 1)
return { ...prev, timeLeft: 0, isRunning: false }; return { ...prev,
timeLeft: prev.timeLeft - 1 }`. -/
def tick (prev : PomodoroState) : PomodoroState :=
  if !prev.isRunning then prev
  else if prev.timeLeft ≤ 1 then { prev with timeLeft := 0, isRunning := false }
  else { prev with timeLeft := prev.timeLeft - 1 }

/-- Embeds the state transition inside `handleSessionComplete` (page.tsx
lines 243-268): phase advance, counter update, next duration, and
`isRunning := settings.autoStartNext`. -/
def completePhase (settings : PomodoroSettings) (prev : PomodoroState) : PomodoroState :=
  let next : SessionType × Nat :=
    match prev.sessionType with
    | .work =>
        let p := prev.pomodorosSinceLongBreak + 1
        if (p : Int) ≥ settings.longBreakInterval then (.long_break, 0)
        else (.short_break, p)
    | .short_break => (.work, prev.pomodorosSinceLongBreak)
    | .long_break => (.work, prev.pomodorosSinceLongBreak)
  { sessionType := next.1
    timeLeft := minutesToSeconds (sessionDurationMinutes next.1 settings)
    isRunning := settings.autoStartNext
    pomodorosSinceLongBreak := next.2 }

/-- Embeds the state transition inside `toggleRunning` (page.tsx lines
355-375): flip `isRunning`; when starting from `timeLeft == 0`, refill the
current phase first. -/
def toggleRunning (settings : PomodoroSettings) (prev : PomodoroState) : PomodoroState :=
  let nextRunning := !prev.isRunning
  if prev.timeLeft = 0 && nextRunning then
    { prev with
        timeLeft := minutesToSeconds (sessionDurationMinutes prev.sessionType settings)
        isRunning := nextRunning }
  else { prev with isRunning := nextRunning }

/-- Embeds `resetTimer` (page.tsx lines 377-384). -/
def resetTimer (settings : PomodoroSettings) : PomodoroState :=
  { sessionType := .work
    timeLeft := minutesToSeconds settings.workDuration
    isRunning := false
    pomodorosSinceLongBreak := 0 }

/-- Embeds the settings-change recompute effect (page.tsx lines 342-353):
when not running, `timeLeft` is recomputed for the current phase from the
new settings; when running, the state is untouched. -/
def recomputeForSettings (settings : PomodoroSettings) (prev : PomodoroState) : PomodoroState :=
  if prev.isRunning then prev
  else
    { prev with
        timeLeft := minutesToSeconds (sessionDurationMinutes prev.sessionType settings) }

/-- Embeds the initial `useState` value of `HomePage` (page.tsx lines
165-170): `work`, full default work duration, paused, counter 0. -/
def initialState : PomodoroState :=
  { sessionType := .work
    timeLeft := minutesToSeconds defaultSettings.workDuration
    isRunning := false
    pomodorosSinceLongBreak := 0 }

/-! ## Claim C8: minutesToSeconds -/

/-- C8: for every integer `durationMinutes` in `[1, 180]`,
`minutesToSeconds durationMinutes = durationMinutes * 60` exactly, and for
negative input the result is floored at zero, in particular
`minutesToSeconds (-5) = 0`. -/
theorem minutesToSeconds_exact_and_floored (m : Int) :
    (1 ≤ m → m ≤ 180 → (minutesToSeconds m : Int) = m * 60)
      ∧ (m < 0 → minutesToSeconds m = 0)
      ∧ minutesToSeconds (-5) = 0 := by
  refine ⟨fun h1 _ => ?_, fun hneg => ?_, by decide⟩
  · have h60 : (0 : Int) ≤ m * 60 := by positivity
    simp only [minutesToSeconds]
    omega
  · have h60 : m * 60 < 0 := by
      have : m * 60 < 0 * 60 := by
        exact mul_lt_mul_of_pos_right hneg (by norm_num)
      simpa using this
    simp only [minutesToSeconds]
    omega

/-- Witness for C8 at `m = 25`. -/
theorem minutesToSeconds_exact_and_floored_witness :
    (minutesToSeconds 25 : Int) = 25 * 60 :=
  (minutesToSeconds_exact_and_floored 25).1 (by decide) (by decide)

/-! ## Claim C2: tick -/

/-- C2: a tick with `running = true` and `secondsRemaining > 1` decrements
by exactly 1 and stays running; with `secondsRemaining = 1` it sets 0 and
stops; with `running = false` it leaves the state unchanged; and `n` ticks
from a running state decrease `secondsRemaining` by `n` while `n` is below
it, after which `secondsRemaining` stays 0 with `running = false`. -/
theorem tick_countdown (s : PomodoroState) :
    (s.isRunning = true → 1 < s.timeLeft →
      tick s = { s with timeLeft := s.timeLeft - 1 })
    ∧ (s.isRunning = true → s.timeLeft = 1 →
      tick s = { s with timeLeft := 0, isRunning := false })
    ∧ (s.isRunning = false → tick s = s)
    ∧ (∀ n : Nat, s.isRunning = true → n < s.timeLeft →
      (tick^[n] s).timeLeft = s.timeLeft - n ∧ (tick^[n] s).isRunning = true
        ∧ (tick^[n] s).sessionType = s.sessionType)
    ∧ (∀ n : Nat, s.isRunning = true → 1 ≤ n → s.timeLeft ≤ n →
      (tick^[n] s).timeLeft = 0 ∧ (tick^[n] s).isRunning = false) := by
  have hrun : ∀ t : PomodoroState, t.isRunning = true → 1 < t.timeLeft →
      tick t = { t with timeLeft := t.timeLeft - 1 } := by
    intro t ht hgt
    simp only [tick, ht]
    have : ¬ t.timeLeft ≤ 1 := by omega
    simp [this]
  have hone : ∀ t : PomodoroState, t.isRunning = true → t.timeLeft ≤ 1 →
      tick t = { t with timeLeft := 0, isRunning := false } := by
    intro t ht hle
    simp [tick, ht, hle]
  have hstop : ∀ t : PomodoroState, t.isRunning = false → tick t = t := by
    intro t ht
    simp [tick, ht]
  have hiter : ∀ n : Nat, ∀ t : PomodoroState, t.isRunning = true → n < t.timeLeft →
      (tick^[n] t).timeLeft = t.timeLeft - n ∧ (tick^[n] t).isRunning = true
        ∧ (tick^[n] t).sessionType = t.sessionType := by
    intro n
    induction n with
    | zero => intro t ht _; simp [ht]
    | succ k ih =>
        intro t ht hlt
        have hgt : 1 < t.timeLeft := by omega
        have hstep : tick t = { t with timeLeft := t.timeLeft - 1 } := hrun t ht hgt
        have hk : k < ({ t with timeLeft := t.timeLeft - 1 } : PomodoroState).timeLeft := by
          simp; omega
        have := ih { t with timeLeft := t.timeLeft - 1 } (by simp [ht]) hk
        rw [Function.iterate_succ_apply, hstep]
        refine ⟨?_, this.2.1, this.2.2⟩
        rw [this.1]
        simp
        omega
  refine ⟨hrun s, fun h1 h2 => hone s h1 (by omega), hstop s,
    fun n h1 h2 => hiter n s h1 h2, ?_⟩
  intro n hs h1 hle
  -- once the countdown has reached 0 and running is false, further ticks
  -- are the identity, so it suffices to reach that point at step `timeLeft`
  -- (or step 1 when `timeLeft = 0`).
  have hzero : ∀ t : PomodoroState, t.timeLeft = 0 → t.isRunning = false →
      ∀ m : Nat, (tick^[m] t).timeLeft = 0 ∧ (tick^[m] t).isRunning = false := by
    intro t ht hr m
    induction m with
    | zero => simp [ht, hr]
    | succ k ih =>
        rw [Function.iterate_succ_apply']
        rw [hstop _ ih.2]
        exact ih
  by_cases h0 : s.timeLeft = 0
  · obtain ⟨n, rfl⟩ : ∃ m, n = m + 1 := ⟨n - 1, by omega⟩
    rw [Function.iterate_succ_apply, hone s hs (by omega)]
    exact hzero _ (by simp) (by simp) n
  · -- run `timeLeft - 1` decrementing ticks, then one final tick to 0
    have hpre := hiter (s.timeLeft - 1) s hs (by omega)
    have hfin : tick^[s.timeLeft] s =
        { tick^[s.timeLeft - 1] s with timeLeft := 0, isRunning := false } := by
      have : s.timeLeft = (s.timeLeft - 1) + 1 := by omega
      rw [this, Function.iterate_succ_apply']
      exact hone _ hpre.2.1 (by omega)
    obtain ⟨m, hm⟩ : ∃ m, n = s.timeLeft + m := ⟨n - s.timeLeft, by omega⟩
    subst hm
    rw [Nat.add_comm, Function.iterate_add_apply, hfin]
    exact hzero _ (by simp) (by simp) m

/-- Witness for C2 at a concrete running state with 3 seconds left. -/
theorem tick_countdown_witness :
    tick ⟨.work, 3, true, 0⟩ = ⟨.work, 2, true, 0⟩
      ∧ (tick^[2] (⟨.work, 3, true, 0⟩ : PomodoroState)).timeLeft = 1
      ∧ (tick^[5] (⟨.work, 3, true, 0⟩ : PomodoroState)).timeLeft = 0
      ∧ (tick^[5] (⟨.work, 3, true, 0⟩ : PomodoroState)).isRunning = false := by
  have h := tick_countdown ⟨.work, 3, true, 0⟩
  refine ⟨h.1 rfl (by decide), ?_, ?_, ?_⟩
  · have := (h.2.2.2.1 2 rfl (by decide)).1
    simpa using this
  · exact (h.2.2.2.2 5 rfl (by decide) (by decide)).1
  · exact (h.2.2.2.2 5 rfl (by decide) (by decide)).2

/-! ## Claim C1: phase completion -/

/-- C1: completing a `work` phase increments the counter and moves to
`long_break` (counter reset to 0) when the new count reaches
`longBreakInterval`, else to `short_break`; completing a break moves back
to `work` with the counter unchanged; the next phase starts with its full
duration and `isRunning = autoStartNext`; and with interval 4, repeated
completions from a fresh `work` phase produce the sequence work,
short_break, work, short_break, work, short_break, work, long_break,
work. -/
theorem completePhase_policy (settings : PomodoroSettings) (s : PomodoroState) :
    (s.sessionType = .work →
      ((s.pomodorosSinceLongBreak + 1 : Int) ≥ settings.longBreakInterval →
        (completePhase settings s).sessionType = .long_break
          ∧ (completePhase settings s).pomodorosSinceLongBreak = 0)
      ∧ ((s.pomodorosSinceLongBreak + 1 : Int) < settings.longBreakInterval →
        (completePhase settings s).sessionType = .short_break
          ∧ (completePhase settings s).pomodorosSinceLongBreak
              = s.pomodorosSinceLongBreak + 1))
    ∧ ((s.sessionType = .short_break ∨ s.sessionType = .long_break) →
      (completePhase settings s).sessionType = .work
        ∧ (completePhase settings s).pomodorosSinceLongBreak
            = s.pomodorosSinceLongBreak)
    ∧ (completePhase settings s).timeLeft
        = minutesToSeconds
            (sessionDurationMinutes (completePhase settings s).sessionType settings)
    ∧ (completePhase settings s).isRunning = settings.autoStartNext
    ∧ (settings.longBreakInterval = 4 → s.sessionType = .work →
        s.pomodorosSinceLongBreak = 0 →
      ((List.range 9).map fun n => ((completePhase settings)^[n] s).sessionType)
        = [.work, .short_break, .work, .short_break, .work, .short_break,
           .work, .long_break, .work]
      ∧ ((completePhase settings)^[8] s).pomodorosSinceLongBreak = 0) := by
  refine ⟨?_, ?_, ?_, ?_, ?_⟩
  · intro hw
    constructor
    · intro hge
      have hcond : settings.longBreakInterval ≤ (s.pomodorosSinceLongBreak : Int) + 1 := by
        omega
      simp [completePhase, hw, hcond]
    · intro hlt
      have hcond : ¬ settings.longBreakInterval ≤ (s.pomodorosSinceLongBreak : Int) + 1 := by
        omega
      simp [completePhase, hw, hcond]
  · rintro (hb | hb) <;> simp [completePhase, hb]
  · cases h : s.sessionType <;>
      simp only [completePhase, h] <;> split <;> rfl
  · cases h : s.sessionType <;> simp [completePhase, h] <;> split <;> rfl
  · intro hint hw hc
    have step : ∀ t : PomodoroState, completePhase settings t =
        { sessionType :=
            (match t.sessionType with
              | .work =>
                  if (t.pomodorosSinceLongBreak + 1 : Int) ≥ settings.longBreakInterval
                  then (SessionType.long_break, 0)
                  else (SessionType.short_break, t.pomodorosSinceLongBreak + 1)
              | .short_break => (SessionType.work, t.pomodorosSinceLongBreak)
              | .long_break => (SessionType.work, t.pomodorosSinceLongBreak)).1
          timeLeft := minutesToSeconds (sessionDurationMinutes
            (match t.sessionType with
              | .work =>
                  if (t.pomodorosSinceLongBreak + 1 : Int) ≥ settings.longBreakInterval
                  then (SessionType.long_break, 0)
                  else (SessionType.short_break, t.pomodorosSinceLongBreak + 1)
              | .short_break => (SessionType.work, t.pomodorosSinceLongBreak)
              | .long_break => (SessionType.work, t.pomodorosSinceLongBreak)).1 settings)
          isRunning := settings.autoStartNext
          pomodorosSinceLongBreak :=
            (match t.sessionType with
              | .work =>
                  if (t.pomodorosSinceLongBreak + 1 : Int) ≥ settings.longBreakInterval
                  then (SessionType.long_break, 0)
                  else (SessionType.short_break, t.pomodorosSinceLongBreak + 1)
              | .short_break => (SessionType.work, t.pomodorosSinceLongBreak)
              | .long_break => (SessionType.work, t.pomodorosSinceLongBreak)).2 } := by
      intro t; rfl
    have h1 : completePhase settings s =
        { sessionType := .short_break
          timeLeft := minutesToSeconds (settings.shortBreakDuration)
          isRunning := settings.autoStartNext
          pomodorosSinceLongBreak := 1 } := by
      rw [step]; simp [hw, hc, hint, sessionDurationMinutes]
    have mk : ∀ (a : SessionType) (c : Nat),
        completePhase settings
          { sessionType := a
            timeLeft := minutesToSeconds (sessionDurationMinutes a settings)
            isRunning := settings.autoStartNext
            pomodorosSinceLongBreak := c }
        = completePhase settings
          { sessionType := a, timeLeft := 0, isRunning := false,
            pomodorosSinceLongBreak := c } := by
      intro a c; rw [step, step]
    have e1 : (completePhase settings)^[1] s = completePhase settings s := rfl
    have nxt : ∀ n : Nat, (completePhase settings)^[n + 1] s
        = completePhase settings ((completePhase settings)^[n] s) := by
      intro n; rw [Function.iterate_succ_apply']
    have h2 : (completePhase settings)^[2] s =
        { sessionType := .work
          timeLeft := minutesToSeconds (settings.workDuration)
          isRunning := settings.autoStartNext
          pomodorosSinceLongBreak := 1 } := by
      rw [nxt 1, e1, h1, step]; simp [hint, sessionDurationMinutes]
    have h3 : (completePhase settings)^[3] s =
        { sessionType := .short_break
          timeLeft := minutesToSeconds (settings.shortBreakDuration)
          isRunning := settings.autoStartNext
          pomodorosSinceLongBreak := 2 } := by
      rw [nxt 2, h2, step]; simp [hint, sessionDurationMinutes]
    have h4 : (completePhase settings)^[4] s =
        { sessionType := .work
          timeLeft := minutesToSeconds (settings.workDuration)
          isRunning := settings.autoStartNext
          pomodorosSinceLongBreak := 2 } := by
      rw [nxt 3, h3, step]; simp [hint, sessionDurationMinutes]
    have h5 : (completePhase settings)^[5] s =
        { sessionType := .short_break
          timeLeft := minutesToSeconds (settings.shortBreakDuration)
          isRunning := settings.autoStartNext
          pomodorosSinceLongBreak := 3 } := by
      rw [nxt 4, h4, step]; simp [hint, sessionDurationMinutes]
    have h6 : (completePhase settings)^[6] s =
        { sessionType := .work
          timeLeft := minutesToSeconds (settings.workDuration)
          isRunning := settings.autoStartNext
          pomodorosSinceLongBreak := 3 } := by
      rw [nxt 5, h5, step]; simp [hint, sessionDurationMinutes]
    have h7 : (completePhase settings)^[7] s =
        { sessionType := .long_break
          timeLeft := minutesToSeconds (settings.longBreakDuration)
          isRunning := settings.autoStartNext
          pomodorosSinceLongBreak := 0 } := by
      rw [nxt 6, h6, step]; simp [hint, sessionDurationMinutes]
    have h8 : (completePhase settings)^[8] s =
        { sessionType := .work
          timeLeft := minutesToSeconds (settings.workDuration)
          isRunning := settings.autoStartNext
          pomodorosSinceLongBreak := 0 } := by
      rw [nxt 7, h7, step]; simp [hint, sessionDurationMinutes]
    constructor
    · simp only [List.range_succ, List.range_zero, List.map_append, List.map_cons,
        List.map_nil, List.nil_append, List.cons_append, Function.iterate_zero_apply,
        e1, h1, h2, h3, h4, h5, h6, h7, h8, hw]
    · rw [h8]

/-- Witness for C1 at the default settings and the fresh work state. -/
theorem completePhase_policy_witness :
    (completePhase defaultSettings initialState).sessionType = .short_break
      ∧ (completePhase defaultSettings initialState).pomodorosSinceLongBreak = 1
      ∧ ((List.range 9).map fun n =>
          ((completePhase defaultSettings)^[n] initialState).sessionType)
        = [.work, .short_break, .work, .short_break, .work, .short_break,
           .work, .long_break, .work] := by
  have h := completePhase_policy defaultSettings initialState
  refine ⟨((h.1 rfl).2 (by decide)).1, ((h.1 rfl).2 (by decide)).2, ?_⟩
  exact (h.2.2.2.2 rfl rfl rfl).1

/-! ## Claim C9: settings change recompute -/

/-- C9: while not running, a duration-settings change recomputes
`timeLeft` to the new full duration of the current phase without changing
the phase (in particular, work 25 to 30 while paused in the work phase
gives 1800); while running, the change leaves the state untouched. -/
theorem recomputeForSettings_policy (settings : PomodoroSettings) (s : PomodoroState) :
    (s.isRunning = false →
      (recomputeForSettings settings s).timeLeft
          = minutesToSeconds (sessionDurationMinutes s.sessionType settings)
        ∧ (recomputeForSettings settings s).sessionType = s.sessionType
        ∧ (recomputeForSettings settings s).isRunning = false
        ∧ (recomputeForSettings settings s).pomodorosSinceLongBreak
            = s.pomodorosSinceLongBreak)
    ∧ (s.isRunning = true → recomputeForSettings settings s = s)
    ∧ (s.isRunning = false → s.sessionType = .work → settings.workDuration = 30 →
        (recomputeForSettings settings s).timeLeft = 1800) := by
  refine ⟨fun h => ?_, fun h => ?_, fun h hw h30 => ?_⟩
  · simp [recomputeForSettings, h]
  · simp [recomputeForSettings, h]
  · simp [recomputeForSettings, h, hw, sessionDurationMinutes, h30, minutesToSeconds]

/-- Witness for C9: pausing in the work phase with the work duration
edited from 25 to 30 minutes yields 1800 seconds remaining; the same
change while running leaves the state untouched. -/
theorem recomputeForSettings_policy_witness :
    (recomputeForSettings { defaultSettings with workDuration := 30 }
        ⟨.work, 900, false, 0⟩).timeLeft = 1800
      ∧ recomputeForSettings { defaultSettings with workDuration := 30 }
          ⟨.work, 900, true, 0⟩ = ⟨.work, 900, true, 0⟩ := by
  constructor
  · exact (recomputeForSettings_policy { defaultSettings with workDuration := 30 }
      ⟨.work, 900, false, 0⟩).2.2 rfl rfl rfl
  · exact (recomputeForSettings_policy { defaultSettings with workDuration := 30 }
      ⟨.work, 900, true, 0⟩).2.1 rfl

/-! ## Decimal rendering facts -/

/-- Value of a digit character produced by `digitChar`. -/
theorem digitChar_val (k : Nat) (h : k < 10) : (digitChar k).toNat - 48 = k := by
  interval_cases k <;> decide

/-- Folding `digitsVal` over one more trailing digit. -/
theorem digitsVal_append_digit (l : List Char) (c : Char) :
    digitsVal (l ++ [c]) = 10 * digitsVal l + (c.toNat - 48) := by
  simp [digitsVal, List.foldl_append]

/-- Decimal printing round-trips: `digitsVal` recovers the number from
`natDigits`. -/
theorem digitsVal_natDigits (n : Nat) : digitsVal (natDigits n) = n := by
  induction n using Nat.strong_induction_on with
  | _ n ih =>
      rw [natDigits_eq]
      by_cases h10 : n < 10
      · simp [h10, digitsVal, digitChar_val n h10]
      · have hlt : n / 10 < n := Nat.div_lt_self (by omega) (by omega)
        rw [if_neg h10, digitsVal_append_digit, ih (n / 10) hlt,
          digitChar_val (n % 10) (by omega)]
        omega

/-- Every character `natDigits` emits is a decimal digit character. -/
theorem natDigits_mem (n : Nat) : ∀ c ∈ natDigits n, ∃ k, k < 10 ∧ c = digitChar k := by
  induction n using Nat.strong_induction_on with
  | _ n ih =>
      rw [natDigits_eq]
      by_cases h10 : n < 10
      · simp only [if_pos h10, List.mem_singleton]
        exact fun c hc => ⟨n, h10, hc⟩
      · have hlt : n / 10 < n := Nat.div_lt_self (by omega) (by omega)
        simp only [if_neg h10, List.mem_append, List.mem_singleton]
        rintro c (hc | hc)
        · exact ih (n / 10) hlt c hc
        · exact ⟨n % 10, by omega, hc⟩

/-! ## Stats store from `src/app/page.tsx` -/

/-- Embeds a `SessionLog` record. -/
structure SessionLog where
  id : String
  type : SessionType
  completedAt : String
  durationMinutes : Int
  deriving DecidableEq, Repr

/-- Embeds the `PomodoroStats` interface. `byDay` is the
`Record<string, number>` in property insertion order (JavaScript objects
with non-index string keys enumerate in insertion order); `history` is
most-recent-first. -/
structure PomodoroStats where
  byDay : List (String × Nat)
  history : List SessionLog
  deriving DecidableEq, Repr

/-- Embeds JavaScript property lookup `byDay[key]` on the day map. -/
def getCount : List (String × Nat) → String → Option Nat
  | [], _ => none
  | (k, v) :: rest, key => if k = key then some v else getCount rest key

/-- Embeds the object-spread update `{ ...prev.byDay, [key]: result }`: an
existing key keeps its position and gets the new value, a fresh key is
appended. -/
def setCount : List (String × Nat) → String → Nat → List (String × Nat)
  | [], key, v => [(key, v)]
  | (k, w) :: rest, key, v =>
      if k = key then (key, v) :: rest else (k, w) :: setCount rest key v

/-- Embeds the `defaultStats` constant. -/
def defaultStats : PomodoroStats :=
  { byDay := [], history := [] }

/-- Embeds the `setStats` updater inside `handleSessionComplete` (page.tsx
lines 270-295), which runs only when the completed phase was `work`. The
day key, the fresh id and the completion timestamp are environment inputs
(wall clock, `crypto.randomUUID`) and are taken as parameters. -/
def recordWorkCompletion (settings : PomodoroSettings) (key id completedAt : String)
    (prev : PomodoroStats) : PomodoroStats :=
  let result := (getCount prev.byDay key).getD 0 + 1
  let entry : SessionLog :=
    { id := id
      type := .work
      completedAt := completedAt
      durationMinutes := sessionDurationMinutes .work settings }
  { byDay := setCount prev.byDay key result
    history := (entry :: prev.history).take 50 }

/-- Looking up the freshly written key returns the freshly written count. -/
theorem getCount_setCount (l : List (String × Nat)) (key : String) (v : Nat) :
    getCount (setCount l key v) key = some v := by
  induction l with
  | nil => simp [setCount, getCount]
  | cons p rest ih =>
      obtain ⟨k, w⟩ := p
      by_cases hk : k = key
      · simp [setCount, getCount, hk]
      · simp [setCount, getCount, hk, ih]

/-! ## Claim C4: work completion updates the stats store -/

/-- C4: recording a completed work session increments the day count by
exactly 1 (a missing day becomes 1), prepends exactly one new log entry at
index 0, and keeps the history within the 50-entry cap, evicting the
oldest entries beyond it. -/
theorem recordWorkCompletion_stats (settings : PomodoroSettings)
    (key id completedAt : String) (prev : PomodoroStats) :
    (getCount prev.byDay key = none →
      getCount (recordWorkCompletion settings key id completedAt prev).byDay key = some 1)
    ∧ (∀ v, getCount prev.byDay key = some v →
      getCount (recordWorkCompletion settings key id completedAt prev).byDay key
        = some (v + 1))
    ∧ (recordWorkCompletion settings key id completedAt prev).history
        = { id := id, type := .work, completedAt := completedAt,
            durationMinutes := sessionDurationMinutes .work settings }
          :: prev.history.take 49
    ∧ (recordWorkCompletion settings key id completedAt prev).history.length
        = min (prev.history.length + 1) 50
    ∧ (recordWorkCompletion settings key id completedAt prev).history.length ≤ 50 := by
  refine ⟨fun hnone => ?_, fun v hv => ?_, ?_, ?_, ?_⟩
  · simp only [recordWorkCompletion, getCount_setCount, hnone, Option.getD_none]
  · simp only [recordWorkCompletion, getCount_setCount, hv, Option.getD_some]
  · simp [recordWorkCompletion, List.take_succ_cons]
  · simp only [recordWorkCompletion, List.length_take, List.length_cons]
    omega
  · simp only [recordWorkCompletion, List.length_take, List.length_cons]
    omega

/-- Witness for C4 on the empty stats store. -/
theorem recordWorkCompletion_stats_witness :
    getCount (recordWorkCompletion defaultSettings "2024-01-01" "id0" "t0"
        defaultStats).byDay "2024-01-01" = some 1
      ∧ (recordWorkCompletion defaultSettings "2024-01-01" "id0" "t0"
          defaultStats).history.length = 1 := by
  constructor
  · exact (recordWorkCompletion_stats defaultSettings "2024-01-01" "id0" "t0"
      defaultStats).1 rfl
  · have h := (recordWorkCompletion_stats defaultSettings "2024-01-01" "id0" "t0"
      defaultStats).2.2.2.1
    simpa [defaultStats] using h

/-! ## Calendar model for `todayKey`, `getWeekSeries`, `calculateStreak`

The utilities in `src/lib/utils` use JavaScript `Date` values only at day
granularity: `todayKey` truncates to midnight and renders the ISO
`YYYY-MM-DD` day key (the format fixed by the spec), `setDate(getDate()-i)`
walks whole days, and `toLocaleDateString` renders a weekday label. A day
is therefore embedded as a proleptic-Gregorian civil date. -/

/-- Calendar day, embedding a JavaScript `Date` truncated to midnight. -/
structure CivilDate where
  year : Int
  month : Nat
  day : Nat
  deriving DecidableEq, Repr

/-- Gregorian leap-year rule, as implemented by JavaScript `Date`. -/
def isLeap (y : Int) : Bool :=
  (y.emod 4 == 0 && y.emod 100 != 0) || y.emod 400 == 0

/-- Number of days in a month of a given year. -/
def daysInMonth (y : Int) (m : Nat) : Nat :=
  if m = 2 then (if isLeap y then 29 else 28)
  else if m = 4 ∨ m = 6 ∨ m = 9 ∨ m = 11 then 30
  else 31

/-- Well-formedness of a civil date. -/
def ValidDate (d : CivilDate) : Prop :=
  1 ≤ d.month ∧ d.month ≤ 12 ∧ 1 ≤ d.day ∧ d.day ≤ daysInMonth d.year d.month

instance : DecidablePred ValidDate := fun d => by
  unfold ValidDate; infer_instance

/-- Embeds `date.setDate(date.getDate() - 1)`: the previous calendar day,
with JavaScript's month and year rollover. -/
def prevDay (d : CivilDate) : CivilDate :=
  if 2 ≤ d.day then { d with day := d.day - 1 }
  else if 2 ≤ d.month then
    { d with month := d.month - 1, day := daysInMonth d.year (d.month - 1) }
  else { year := d.year - 1, month := 12, day := 31 }

/-- Four-digit zero-padded decimal rendering used by `toISOString` for
years 0 to 9999. -/
def pad4 (n : Nat) : String :=
  String.mk [digitChar (n / 1000 % 10), digitChar (n / 100 % 10),
    digitChar (n / 10 % 10), digitChar (n % 10)]

/-- Year field of the ISO date string: four digits for years 0 to 9999,
and the expanded sign-prefixed form JavaScript uses outside that range. -/
def padYear (y : Int) : String :=
  if 0 ≤ y ∧ y < 10000 then pad4 y.toNat
  else
    let ds := natDigits y.natAbs
    (if y < 0 then "-" else "+")
      ++ String.mk (List.replicate (6 - ds.length) (Char.ofNat 48) ++ ds)

/-- Embeds `todayKey` from `src/lib/utils`: the `YYYY-MM-DD` day key of a
date (`toISOString().split("T")[0]` after truncation to midnight). -/
def toKey (d : CivilDate) : String :=
  padYear d.year ++ "-" ++ pad2 d.month ++ "-" ++ pad2 d.day

/-- Embeds the `toLocaleDateString(undefined, { weekday: "short" })` label
via Zeller's congruence (English short weekday names). -/
def weekdayShort (d : CivilDate) : String :=
  let m : Int := if d.month < 3 then (d.month : Int) + 12 else d.month
  let y : Int := if d.month < 3 then d.year - 1 else d.year
  let K := y.emod 100
  let J := y.ediv 100
  let h := ((d.day : Int) + (13 * (m + 1)).ediv 5 + K + K.ediv 4 + J.ediv 4 + 5 * J).emod 7
  ["Sat", "Sun", "Mon", "Tue", "Wed", "Thu", "Fri"].getD h.toNat "Sat"

/-- Embeds `getWeekSeries` from `src/lib/utils`: seven points for the days
`endDate - 6` through `endDate`, oldest first, each carrying the day key,
a weekday label, and the stored count defaulted to 0. -/
structure SeriesPoint where
  key : String
  label : String
  value : Nat
  deriving DecidableEq, Repr

/-- Loop body of `getWeekSeries`: the point pushed for loop index
`i = 6 - j` (the source counts `i` down from 6 to 0). -/
def getWeekSeries (stats : List (String × Nat)) (endDate : CivilDate) : List SeriesPoint :=
  (List.range 7).map fun j =>
    let date := prevDay^[6 - j] endDate
    { key := toKey date
      label := weekdayShort date
      value := (getCount stats (toKey date)).getD 0 }

/-- Embeds the JavaScript truthiness test `!stats[key]` used by
`calculateStreak`: a day qualifies when its stored count exists and is
non-zero. -/
def truthyAt (stats : List (String × Nat)) (d : CivilDate) : Bool :=
  match getCount stats (toKey d) with
  | none => false
  | some v => v != 0

/-- Fuel-driven unfolding of the `while (true)` loop of `calculateStreak`:
while the current day is truthy, count it and step to the previous day. -/
def streakAux (stats : List (String × Nat)) : Nat → CivilDate → Nat
  | 0, _ => 0
  | fuel + 1, d => if truthyAt stats d then streakAux stats fuel (prevDay d) + 1 else 0

/-- Embeds `calculateStreak` from `src/lib/utils`. The source loop is
unbounded (`while (true)`); `stats.length + 1` steps of fuel always
suffice because a map with `stats.length` entries cannot make more than
`stats.length` distinct day keys truthy, which the fuel-stability part of
the termination theorem makes precise. -/
def calculateStreak (stats : List (String × Nat)) (reference : CivilDate) : Nat :=
  streakAux stats (stats.length + 1) reference

/-! ## Basic calendar lemmas -/

/-- Months have between 28 and 31 days. -/
theorem daysInMonth_bounds (y : Int) (m : Nat) :
    1 ≤ daysInMonth y m ∧ daysInMonth y m ≤ 31 := by
  unfold daysInMonth
  split
  · split <;> omega
  · split <;> omega

/-- The previous day of a valid date is valid. -/
theorem prevDay_valid (d : CivilDate) (h : ValidDate d) : ValidDate (prevDay d) := by
  obtain ⟨h1, h2, h3, h4⟩ := h
  have hdm1 := daysInMonth_bounds d.year (d.month - 1)
  have hdm12 : daysInMonth (d.year - 1) 12 = 31 := by
    unfold daysInMonth; norm_num
  by_cases hd : 2 ≤ d.day
  · simp only [ValidDate, prevDay, if_pos hd]
    exact ⟨h1, h2, by omega, by omega⟩
  · by_cases hm : 2 ≤ d.month
    · simp only [ValidDate, prevDay, if_neg hd, if_pos hm]
      exact ⟨by omega, by omega, hdm1.1, le_refl _⟩
    · simp only [ValidDate, prevDay, if_neg hd, if_neg hm]
      exact ⟨by omega, by omega, by omega, by omega⟩

/-- All backward iterates of a valid date are valid. -/
theorem iterate_prevDay_valid (d : CivilDate) (h : ValidDate d) (n : Nat) :
    ValidDate (prevDay^[n] d) := by
  induction n with
  | zero => simpa using h
  | succ k ih =>
      rw [Function.iterate_succ_apply']
      exact prevDay_valid _ ih

/-- Linearization of a civil date used to separate distinct days. -/
def dateOrd (d : CivilDate) : Int :=
  372 * d.year + 31 * d.month + d.day

/-- Stepping back one day strictly decreases the linearization. -/
theorem dateOrd_prevDay_lt (d : CivilDate) (h : ValidDate d) :
    dateOrd (prevDay d) < dateOrd d := by
  obtain ⟨h1, h2, h3, h4⟩ := h
  have hdm := daysInMonth_bounds d.year (d.month - 1)
  by_cases hd : 2 ≤ d.day
  · simp only [dateOrd, prevDay, if_pos hd]
    omega
  · by_cases hm : 2 ≤ d.month
    · simp only [dateOrd, prevDay, if_neg hd, if_pos hm]
      omega
    · simp only [dateOrd, prevDay, if_neg hd, if_neg hm]
      omega

/-- Stepping back never increases the year. -/
theorem prevDay_year_le (d : CivilDate) : (prevDay d).year ≤ d.year := by
  unfold prevDay
  by_cases hd : 2 ≤ d.day
  · rw [if_pos hd]
  · rw [if_neg hd]
    by_cases hm : 2 ≤ d.month
    · rw [if_pos hm]
    · rw [if_neg hm]
      show d.year - 1 ≤ d.year
      omega

/-- Year is antitone along backward iterates. -/
theorem iterate_prevDay_year_le (d : CivilDate) (a b : Nat) (h : a ≤ b) :
    (prevDay^[b] d).year ≤ (prevDay^[a] d).year := by
  obtain ⟨c, rfl⟩ : ∃ c, b = c + a := ⟨b - a, by omega⟩
  rw [Function.iterate_add_apply]
  generalize prevDay^[a] d = x
  clear h
  induction c with
  | zero => simp
  | succ k ih =>
      rw [Function.iterate_succ_apply']
      exact le_trans (prevDay_year_le _) ih

/-- Backward iterates of a valid date are pairwise distinct days. -/
theorem iterate_prevDay_strictAnti (d : CivilDate) (h : ValidDate d) :
    StrictAnti (fun n => dateOrd (prevDay^[n] d)) := by
  apply strictAnti_nat_of_succ_lt
  intro n
  rw [Function.iterate_succ_apply']
  exact dateOrd_prevDay_lt _ (iterate_prevDay_valid d h n)

/-! ## Day keys are injective on four-digit years -/

/-- Digit characters are distinct for distinct digits. -/
theorem digitChar_inj : ∀ a < 10, ∀ b < 10, digitChar a = digitChar b → a = b := by
  decide

/-- Two-digit numbers print as exactly their two digits. -/
theorem natDigits_two (n : Nat) (h1 : 10 ≤ n) (h2 : n < 100) :
    natDigits n = [digitChar (n / 10), digitChar (n % 10)] := by
  rw [natDigits_eq, if_neg (by omega), natDigits_eq, if_pos (by omega)]
  rfl

/-- Character data of `pad2` below 100: always exactly two digits. -/
theorem pad2_data (n : Nat) (h : n < 100) :
    (pad2 n).data = [digitChar (n / 10), digitChar (n % 10)] := by
  by_cases h10 : n < 10
  · have hdiv : n / 10 = 0 := by omega
    have hmod : n % 10 = n := by omega
    simp [pad2, h10, hdiv, hmod, digitChar]
  · simp [pad2, h10, natDigits_two n (by omega) h]

/-- Character data of `toKey` for a valid date with a four-digit year. -/
theorem toKey_data (d : CivilDate) (hv : ValidDate d) (hy0 : 0 ≤ d.year)
    (hy : d.year < 10000) :
    (toKey d).data =
      [digitChar (d.year.toNat / 1000 % 10), digitChar (d.year.toNat / 100 % 10),
       digitChar (d.year.toNat / 10 % 10), digitChar (d.year.toNat % 10), Char.ofNat 45,
       digitChar (d.month / 10), digitChar (d.month % 10), Char.ofNat 45,
       digitChar (d.day / 10), digitChar (d.day % 10)] := by
  obtain ⟨h1, h2, h3, h4⟩ := hv
  have hm : d.month < 100 := by omega
  have hd : d.day < 100 := by
    have := (daysInMonth_bounds d.year d.month).2
    omega
  have hiso : padYear d.year = pad4 d.year.toNat := by
    simp [padYear, hy0, hy]
  simp only [toKey, hiso, String.data_append, pad2_data d.month hm, pad2_data d.day hd]
  rfl

/-- Day keys distinguish distinct valid dates with four-digit years. -/
theorem toKey_inj (d1 d2 : CivilDate) (hv1 : ValidDate d1) (hv2 : ValidDate d2)
    (ha1 : 0 ≤ d1.year) (hb1 : d1.year < 10000)
    (ha2 : 0 ≤ d2.year) (hb2 : d2.year < 10000)
    (heq : toKey d1 = toKey d2) : d1 = d2 := by
  have hdata := congrArg String.data heq
  rw [toKey_data d1 hv1 ha1 hb1, toKey_data d2 hv2 ha2 hb2] at hdata
  simp only [List.cons.injEq, and_true] at hdata
  obtain ⟨e1, e2, e3, e4, -, e5, e6, -, e7, e8⟩ := hdata
  have m10 : ∀ k : Nat, k % 10 < 10 := fun k => Nat.mod_lt k (by omega)
  have g1 := digitChar_inj _ (m10 _) _ (m10 _) e1
  have g2 := digitChar_inj _ (m10 _) _ (m10 _) e2
  have g3 := digitChar_inj _ (m10 _) _ (m10 _) e3
  have g4 := digitChar_inj _ (m10 _) _ (m10 _) e4
  have hm1 : d1.month < 100 := by obtain ⟨-, h, -, -⟩ := hv1; omega
  have hm2 : d2.month < 100 := by obtain ⟨-, h, -, -⟩ := hv2; omega
  have hd1 : d1.day < 100 := by
    obtain ⟨-, -, -, h⟩ := hv1
    have := (daysInMonth_bounds d1.year d1.month).2
    omega
  have hd2 : d2.day < 100 := by
    obtain ⟨-, -, -, h⟩ := hv2
    have := (daysInMonth_bounds d2.year d2.month).2
    omega
  have g5 := digitChar_inj _ (by omega) _ (by omega) e5
  have g6 := digitChar_inj _ (m10 _) _ (m10 _) e6
  have g7 := digitChar_inj _ (by omega) _ (by omega) e7
  have g8 := digitChar_inj _ (m10 _) _ (m10 _) e8
  have hy : d1.year = d2.year := by
    have hn1 : d1.year.toNat < 10000 := by omega
    have hn2 : d2.year.toNat < 10000 := by omega
    have : d1.year.toNat = d2.year.toNat := by omega
    omega
  have hm : d1.month = d2.month := by omega
  have hd : d1.day = d2.day := by omega
  obtain ⟨y1, m1, dd1⟩ := d1
  obtain ⟨y2, m2, dd2⟩ := d2
  simp_all

/-! ## Termination of the streak walk -/

/-- A present key is among the map's keys. -/
theorem getCount_mem (l : List (String × Nat)) (key : String) (v : Nat)
    (h : getCount l key = some v) : key ∈ l.map Prod.fst := by
  induction l with
  | nil => simp [getCount] at h
  | cons p rest ih =>
      obtain ⟨k, w⟩ := p
      by_cases hk : k = key
      · simp [hk]
      · simp only [getCount, if_neg hk] at h
        simp [ih h]

/-- A truthy day's key is among the map's keys. -/
theorem truthyAt_mem (stats : List (String × Nat)) (d : CivilDate)
    (h : truthyAt stats d = true) : toKey d ∈ stats.map Prod.fst := by
  unfold truthyAt at h
  cases hg : getCount stats (toKey d) with
  | none => rw [hg] at h; simp at h
  | some v => exact getCount_mem stats (toKey d) v hg

/-- Walking back from a valid reference day with a four-digit year, a day
with a zero or missing count appears within `stats.length` steps: the
finitely many stored keys cannot cover `stats.length + 1` distinct day
keys. -/
theorem exists_falsy (stats : List (String × Nat)) (ref : CivilDate)
    (hv : ValidDate ref) (hy : ref.year < 10000)
    (h0 : 0 ≤ (prevDay^[stats.length] ref).year) :
    ∃ k, k ≤ stats.length ∧ truthyAt stats (prevDay^[k] ref) = false := by
  by_contra hcon
  push_neg at hcon
  have htruthy : ∀ k, k ≤ stats.length → truthyAt stats (prevDay^[k] ref) = true := by
    intro k hk
    have := hcon k hk
    revert this
    cases truthyAt stats (prevDay^[k] ref) <;> simp
  set L : List String :=
    (List.range (stats.length + 1)).map (fun k => toKey (prevDay^[k] ref)) with hL
  have hvalid : ∀ k : Nat, ValidDate (prevDay^[k] ref) :=
    iterate_prevDay_valid ref hv
  have hyear : ∀ k, k ≤ stats.length →
      0 ≤ (prevDay^[k] ref).year ∧ (prevDay^[k] ref).year < 10000 := by
    intro k hk
    constructor
    · exact le_trans h0 (iterate_prevDay_year_le ref k stats.length hk)
    · have := iterate_prevDay_year_le ref 0 k (by omega)
      simp only [Function.iterate_zero_apply] at this
      omega
  have hanti := iterate_prevDay_strictAnti ref hv
  have hnodup : L.Nodup := by
    refine List.Nodup.map_on ?_ (List.nodup_range _)
    intro a ha b hb hab
    simp only [List.mem_range] at ha hb
    have hda := toKey_inj (prevDay^[a] ref) (prevDay^[b] ref)
      (hvalid a) (hvalid b)
      (hyear a (by omega)).1 (hyear a (by omega)).2
      (hyear b (by omega)).1 (hyear b (by omega)).2 hab
    by_contra hne
    rcases Nat.lt_or_ge a b with hlt | hge
    · have hord : dateOrd (prevDay^[b] ref) < dateOrd (prevDay^[a] ref) := hanti hlt
      rw [hda] at hord
      exact absurd hord (lt_irrefl _)
    · have hlt : b < a := by omega
      have hord : dateOrd (prevDay^[a] ref) < dateOrd (prevDay^[b] ref) := hanti hlt
      rw [hda] at hord
      exact absurd hord (lt_irrefl _)
  have hsub : L ⊆ stats.map Prod.fst := by
    intro x hx
    rw [hL] at hx
    simp only [List.mem_map, List.mem_range] at hx
    obtain ⟨k, hk, rfl⟩ := hx
    exact truthyAt_mem stats _ (htruthy k (by omega))
  have hlen : L.length = stats.length + 1 := by
    simp [hL]
  have := (List.Nodup.subperm hnodup hsub).length_le
  rw [hlen] at this
  simp at this

/-- Fuel stability of the streak loop: once the first non-truthy day lies
within the fuel bound, the result is the index of that day and is
independent of the fuel. -/
theorem streakAux_stable (stats : List (String × Nat)) :
    ∀ (n : Nat) (d : CivilDate) (fuel : Nat),
      (∀ i, i < n → truthyAt stats (prevDay^[i] d) = true) →
      truthyAt stats (prevDay^[n] d) = false → n < fuel →
      streakAux stats fuel d = n := by
  intro n
  induction n with
  | zero =>
      intro d fuel _ hfalse hfuel
      obtain ⟨f, rfl⟩ : ∃ f, fuel = f + 1 := ⟨fuel - 1, by omega⟩
      simp only [Function.iterate_zero_apply] at hfalse
      simp [streakAux, hfalse]
  | succ k ih =>
      intro d fuel htrue hfalse hfuel
      obtain ⟨f, rfl⟩ : ∃ f, fuel = f + 1 := ⟨fuel - 1, by omega⟩
      have h0 : truthyAt stats d = true := by
        have := htrue 0 (by omega)
        simpa using this
      have htrue2 : ∀ i, i < k → truthyAt stats (prevDay^[i] (prevDay d)) = true := by
        intro i hi
        rw [← Function.iterate_succ_apply]
        exact htrue (i + 1) (by omega)
      have hfalse2 : truthyAt stats (prevDay^[k] (prevDay d)) = false := by
        rw [← Function.iterate_succ_apply]
        exact hfalse
      simp only [streakAux, h0, if_pos]
      rw [ih (prevDay d) f htrue2 hfalse2 (by omega)]

/-! ## Claim C10: the streak walk terminates -/

/-- Concrete day map used by the spec scenarios for `calculateStreak`. -/
def exampleStats : List (String × Nat) :=
  [("2024-01-01", 2), ("2024-01-02", 1), ("2024-01-03", 0)]

/-- C10: for every finite day map and every valid reference day (with the
four-digit years the `YYYY-MM-DD` key format covers), the backward walk of
`calculateStreak` reaches a day with a zero or missing count within
`stats.length` steps, and any fuel beyond `stats.length` computes the same
streak, so the unbounded source loop terminates with this value. -/
theorem calculateStreak_terminates (stats : List (String × Nat)) (ref : CivilDate)
    (hv : ValidDate ref) (hy : ref.year < 10000)
    (h0 : 0 ≤ (prevDay^[stats.length] ref).year) :
    (∃ k, k ≤ stats.length ∧ truthyAt stats (prevDay^[k] ref) = false)
    ∧ ∀ fuel, stats.length < fuel →
        streakAux stats fuel ref = calculateStreak stats ref := by
  have hex := exists_falsy stats ref hv hy h0
  refine ⟨hex, ?_⟩
  intro fuel hfuel
  obtain ⟨k, hk, hfalsy⟩ := hex
  have hex2 : ∃ n, truthyAt stats (prevDay^[n] ref) = false := ⟨k, hfalsy⟩
  have hnk : Nat.find hex2 ≤ k := Nat.find_min' hex2 hfalsy
  have htrue : ∀ i, i < Nat.find hex2 → truthyAt stats (prevDay^[i] ref) = true := by
    intro i hi
    have hne := Nat.find_min hex2 hi
    cases h : truthyAt stats (prevDay^[i] ref)
    · exact absurd h hne
    · rfl
  have hfalse := Nat.find_spec hex2
  have e1 := streakAux_stable stats (Nat.find hex2) ref fuel htrue hfalse (by omega)
  have e2 := streakAux_stable stats (Nat.find hex2) ref (stats.length + 1) htrue hfalse
    (by omega)
  rw [calculateStreak, e1, e2]

/-- Witness for C10 on the concrete scenario map. -/
theorem calculateStreak_terminates_witness :
    streakAux exampleStats 10 ⟨2024, 1, 3⟩ = calculateStreak exampleStats ⟨2024, 1, 3⟩ :=
  (calculateStreak_terminates exampleStats ⟨2024, 1, 3⟩ (by decide) (by decide)
    (by decide)).2 10 (by decide)

/-! ## Claim C6: calculateStreak -/

/-- C6: the streak is the number of consecutive days ending at the
reference day (inclusive, walking backward) whose stored count is
non-zero, stopping at the first day with a zero or missing count; it is 0
when the reference day itself does not qualify. On the scenario map,
reference 2024-01-03 gives 0 and reference 2024-01-02 gives 2. -/
theorem calculateStreak_spec :
    (∀ (stats : List (String × Nat)) (ref : CivilDate), ValidDate ref →
      ref.year < 10000 → 0 ≤ (prevDay^[stats.length] ref).year →
      (∀ i, i < calculateStreak stats ref → truthyAt stats (prevDay^[i] ref) = true)
      ∧ truthyAt stats (prevDay^[calculateStreak stats ref] ref) = false
      ∧ (truthyAt stats ref = false → calculateStreak stats ref = 0))
    ∧ calculateStreak exampleStats ⟨2024, 1, 3⟩ = 0
    ∧ calculateStreak exampleStats ⟨2024, 1, 2⟩ = 2 := by
  refine ⟨?_, by decide, by decide⟩
  intro stats ref hv hy h0
  obtain ⟨k, hk, hfalsy⟩ := exists_falsy stats ref hv hy h0
  have hex2 : ∃ n, truthyAt stats (prevDay^[n] ref) = false := ⟨k, hfalsy⟩
  have hnk : Nat.find hex2 ≤ k := Nat.find_min' hex2 hfalsy
  have htrue : ∀ i, i < Nat.find hex2 → truthyAt stats (prevDay^[i] ref) = true := by
    intro i hi
    have hne := Nat.find_min hex2 hi
    cases h : truthyAt stats (prevDay^[i] ref)
    · exact absurd h hne
    · rfl
  have hfalse := Nat.find_spec hex2
  have heq : calculateStreak stats ref = Nat.find hex2 := by
    rw [calculateStreak]
    exact streakAux_stable stats (Nat.find hex2) ref (stats.length + 1) htrue hfalse
      (by omega)
  rw [heq]
  refine ⟨htrue, hfalse, fun href => ?_⟩
  rw [Nat.find_eq_zero]
  simpa using href

/-- Witness for C6: on the scenario map with reference 2024-01-02, the
walk stops exactly at 2023-12-31. -/
theorem calculateStreak_spec_witness :
    truthyAt exampleStats
      (prevDay^[calculateStreak exampleStats ⟨2024, 1, 2⟩] ⟨2024, 1, 2⟩) = false :=
  (calculateStreak_spec.1 exampleStats ⟨2024, 1, 2⟩ (by decide) (by decide)
    (by decide)).2.1

/-! ## Claim C5: getWeekSeries -/

/-- C5: the weekly series always has exactly 7 points, oldest first (index
`j` is the day `6 - j` steps before the reference), the last point's key
is the reference day's key, and each point's count is the stored count for
its day key, defaulting to 0 for absent days. -/
theorem getWeekSeries_spec (stats : List (String × Nat)) (endDate : CivilDate) :
    (getWeekSeries stats endDate).length = 7
    ∧ ((getWeekSeries stats endDate).map SeriesPoint.key).getLast? = some (toKey endDate)
    ∧ (∀ j, j < 7 → (getWeekSeries stats endDate).get? j
        = some { key := toKey (prevDay^[6 - j] endDate)
                 label := weekdayShort (prevDay^[6 - j] endDate)
                 value := (getCount stats (toKey (prevDay^[6 - j] endDate))).getD 0 })
    ∧ (∀ p ∈ getWeekSeries stats endDate, getCount stats p.key = none → p.value = 0) := by
  refine ⟨rfl, rfl, ?_, ?_⟩
  · intro j hj
    interval_cases j <;> rfl
  · intro p hp hnone
    simp only [getWeekSeries, List.mem_map, List.mem_range] at hp
    obtain ⟨j, hj, rfl⟩ := hp
    simp [hnone]

/-- Witness for C5 on an empty day map ending 2024-01-07. -/
theorem getWeekSeries_spec_witness :
    (getWeekSeries [] ⟨2024, 1, 7⟩).get? 6
      = some { key := toKey (prevDay^[0] ⟨2024, 1, 7⟩)
               label := weekdayShort (prevDay^[0] ⟨2024, 1, 7⟩)
               value := (getCount [] (toKey (prevDay^[0] ⟨2024, 1, 7⟩))).getD 0 } :=
  (getWeekSeries_spec [] ⟨2024, 1, 7⟩).2.2.1 6 (by decide)

/-! ## CSV export from `src/app/page.tsx` -/

/-- Lexicographic comparison of character lists by code point: the order
`localeCompare` induces on the plain ASCII `YYYY-MM-DD` day keys. -/
def charListLe : List Char → List Char → Bool
  | [], _ => true
  | _ :: _, [] => false
  | a :: as, b :: bs => if a = b then charListLe as bs else decide (a < b)

/-- Embeds the comparator `([a], [b]) => a.localeCompare(b)` used by
`createCsv` on day keys. -/
def keyLe (a b : String) : Bool :=
  charListLe a.data b.data

/-- Row order of the CSV: ascending by date key. -/
def byDayLe (p q : String × Nat) : Prop :=
  keyLe p.1 q.1 = true

instance : DecidableRel byDayLe := fun p q => by
  unfold byDayLe; infer_instance

/-- The comparator is total. -/
theorem charListLe_total : ∀ a b, charListLe a b = true ∨ charListLe b a = true := by
  intro a
  induction a with
  | nil => intro b; left; rfl
  | cons x xs ih =>
      intro b
      cases b with
      | nil => right; rfl
      | cons y ys =>
          by_cases hxy : x = y
          · subst hxy
            simp only [charListLe, if_pos rfl]
            exact ih ys
          · rcases lt_or_gt_of_ne hxy with hlt | hgt
            · left
              simp [charListLe, hxy, hlt]
            · right
              simp [charListLe, Ne.symm hxy, hgt]

/-- The comparator is transitive. -/
theorem charListLe_trans : ∀ a b c, charListLe a b = true → charListLe b c = true →
    charListLe a c = true := by
  intro a
  induction a with
  | nil => intro b c _ _; rfl
  | cons x xs ih =>
      intro b c h1 h2
      cases b with
      | nil => simp [charListLe] at h1
      | cons y ys =>
          cases c with
          | nil => simp [charListLe] at h2
          | cons z zs =>
              by_cases hxy : x = y <;> by_cases hyz : y = z
              · subst hxy; subst hyz
                simp only [charListLe, if_pos rfl] at h1 h2 ⊢
                exact ih ys zs h1 h2
              · subst hxy
                simp only [charListLe, if_pos rfl] at h1
                simp only [charListLe, if_neg hyz, decide_eq_true_eq] at h2
                simp [charListLe, hyz, h2]
              · subst hyz
                simp only [charListLe, if_pos rfl] at h2
                simp only [charListLe, if_neg hxy, decide_eq_true_eq] at h1
                simp [charListLe, hxy, h1]
              · simp only [charListLe, if_neg hxy, decide_eq_true_eq] at h1
                simp only [charListLe, if_neg hyz, decide_eq_true_eq] at h2
                have hxz : x < z := lt_trans h1 h2
                simp [charListLe, ne_of_lt hxz, hxz]

instance : IsTotal (String × Nat) byDayLe :=
  ⟨fun p q => by
    unfold byDayLe keyLe
    rcases charListLe_total p.1.data q.1.data with h | h
    · exact Or.inl h
    · exact Or.inr h⟩

instance : IsTrans (String × Nat) byDayLe :=
  ⟨fun p q r h1 h2 => charListLe_trans _ _ _ h1 h2⟩

/-- Embeds `Object.entries(stats.byDay).sort(([a],[b]) => a.localeCompare(b))`
(a stable comparator sort, modeled by insertion sort). -/
def sortByKey (l : List (String × Nat)) : List (String × Nat) :=
  List.insertionSort byDayLe l

/-- Embeds `headers.join(",")` for `["Date", "Pomodoros Completed"]`. -/
def csvHeader : String :=
  "Date,Pomodoros Completed"

/-- Embeds the row template literal `${date},${count}`. -/
def rowOf (p : String × Nat) : String :=
  p.1 ++ "," ++ String.mk (natDigits p.2)

/-- Embeds `createCsv` from `src/app/page.tsx` (lines 140-146). -/
def createCsv (stats : PomodoroStats) : String :=
  String.intercalate "\n" (csvHeader :: (sortByKey stats.byDay).map rowOf)

/-! ## CSV parsing: recovery of the day counts from the export -/

/-- Splits a character list at every occurrence of a separator. -/
def splitOnChar (c : Char) : List Char → List (List Char)
  | [] => [[]]
  | ch :: rest =>
      match splitOnChar c rest with
      | [] => [[ch]]
      | g :: gs => if ch = c then [] :: g :: gs else (ch :: g) :: gs

/-- Reads one `date,count` row back into a key and a count. -/
def parseLine (l : List Char) : String × Nat :=
  (String.mk (l.takeWhile fun ch => ch != ','),
   digitsVal ((l.dropWhile fun ch => ch != ',').drop 1))

/-- Reads a CSV produced by `createCsv` back into its day-count rows,
dropping the header line. -/
def parseCsv (s : String) : List (String × Nat) :=
  match splitOnChar (Char.ofNat 10) s.data with
  | [] => []
  | _ :: lines => lines.map parseLine

/-- The splitter never returns an empty group list. -/
theorem splitOnChar_ne_nil (c : Char) : ∀ l, splitOnChar c l ≠ [] := by
  intro l
  cases l with
  | nil => simp [splitOnChar]
  | cons ch rest =>
      simp only [splitOnChar]
      cases splitOnChar c rest with
      | nil => simp
      | cons g gs =>
          by_cases h : ch = c <;> simp [h]

/-- Separator-free prefixes extend the first group of a split. -/
theorem splitOnChar_append (c : Char) : ∀ (l rest : List Char) (g : List Char)
    (gs : List (List Char)), c ∉ l → splitOnChar c rest = g :: gs →
    splitOnChar c (l ++ rest) = (l ++ g) :: gs := by
  intro l
  induction l with
  | nil => intro rest g gs _ h; simpa using h
  | cons ch l2 ih =>
      intro rest g gs hc h
      have hch : ch ≠ c := by
        intro hn
        exact hc (by simp [hn])
      have hc2 : c ∉ l2 := fun hn => hc (by simp [hn])
      have := ih rest g gs hc2 h
      simp only [List.cons_append, splitOnChar, List.append_eq, this, if_neg hch]

/-- A leading separator opens a fresh empty group. -/
theorem splitOnChar_cons_sep (c : Char) (rest : List Char) :
    splitOnChar c (c :: rest) = [] :: splitOnChar c rest := by
  simp only [splitOnChar]
  cases h : splitOnChar c rest with
  | nil => exact absurd h (splitOnChar_ne_nil c rest)
  | cons g gs => simp

/-- Splitting undoes separator-interleaved flattening of separator-free
groups. -/
theorem splitOnChar_flatten (c : Char) : ∀ (ls : List (List Char)) (a : List Char),
    c ∉ a → (∀ x ∈ ls, c ∉ x) →
    splitOnChar c (a ++ (ls.map fun x => c :: x).flatten) = a :: ls := by
  intro ls
  induction ls with
  | nil =>
      intro a ha _
      simpa using splitOnChar_append c a [] [] [] ha rfl
  | cons x ls2 ih =>
      intro a ha hx
      have hx2 : ∀ y ∈ ls2, c ∉ y := fun y hy => hx y (by simp [hy])
      have hxx : c ∉ x := hx x (by simp)
      have hrec := ih x hxx hx2
      have hstep : splitOnChar c (c :: (x ++ (ls2.map fun y => c :: y).flatten))
          = [] :: x :: ls2 := by
        rw [splitOnChar_cons_sep, hrec]
      have := splitOnChar_append c a (c :: (x ++ (ls2.map fun y => c :: y).flatten))
        [] (x :: ls2) ha hstep
      simpa using this

/-- Character data of the worker of `String.intercalate`. -/
theorem intercalate_go_data (s : String) : ∀ (ls : List String) (acc : String),
    (String.intercalate.go acc s ls).data
      = acc.data ++ (ls.map fun x => s.data ++ x.data).flatten := by
  intro ls
  induction ls with
  | nil =>
      intro acc
      rw [show String.intercalate.go acc s [] = acc from rfl]
      simp
  | cons x ls2 ih =>
      intro acc
      rw [show String.intercalate.go acc s (x :: ls2)
        = String.intercalate.go (acc ++ s ++ x) s ls2 from rfl, ih]
      simp [String.data_append]

/-- Character data of `String.intercalate` on a non-empty line list. -/
theorem intercalate_data (s a : String) (ls : List String) :
    (String.intercalate s (a :: ls)).data
      = a.data ++ (ls.map fun x => s.data ++ x.data).flatten := by
  rw [show String.intercalate s (a :: ls) = String.intercalate.go a s ls from rfl]
  exact intercalate_go_data s ls a

/-- Character data of a newline join, in separator-cons form. -/
theorem intercalate_newline_data (a : String) (ls : List String) :
    (String.intercalate "\n" (a :: ls)).data
      = a.data ++ ((ls.map String.data).map fun x => Char.ofNat 10 :: x).flatten := by
  rw [intercalate_data]
  have hnl : ("\n" : String).data = [Char.ofNat 10] := by decide
  simp only [hnl, List.map_map, Function.comp_def, List.singleton_append]

/-- Recovering a string from its own character data. -/
theorem string_mk_data (s : String) : String.mk s.data = s := by
  cases s
  rfl

/-- Character data of one CSV row. -/
theorem rowOf_data (p : String × Nat) :
    (rowOf p).data = p.1.data ++ Char.ofNat 44 :: natDigits p.2 := by
  have hcm : ("," : String).data = [Char.ofNat 44] := by decide
  simp [rowOf, String.data_append, hcm]

/-- Digit characters are neither the comma nor the newline separator. -/
theorem natDigits_no_sep (n : Nat) :
    Char.ofNat 44 ∉ natDigits n ∧ Char.ofNat 10 ∉ natDigits n := by
  have hdig : ∀ k, k < 10 → digitChar k ≠ Char.ofNat 44 ∧ digitChar k ≠ Char.ofNat 10 := by
    decide
  constructor <;>
    · intro hmem
      obtain ⟨k, hk, heq⟩ := natDigits_mem n _ hmem
      first
        | exact (hdig k hk).1 heq.symm
        | exact (hdig k hk).2 heq.symm

/-- `takeWhile` and `dropWhile` at the first separator occurrence. -/
theorem takeWhile_no_sep (c : Char) : ∀ (l rest : List Char), c ∉ l →
    ((l ++ c :: rest).takeWhile fun ch => ch != c) = l
    ∧ ((l ++ c :: rest).dropWhile fun ch => ch != c) = c :: rest := by
  intro l
  induction l with
  | nil =>
      intro rest _
      constructor <;> simp
  | cons ch l2 ih =>
      intro rest hc
      have hch : ch ≠ c := fun hn => hc (by simp [hn])
      have hc2 : c ∉ l2 := fun hn => hc (by simp [hn])
      obtain ⟨h1, h2⟩ := ih rest hc2
      constructor
      · simp [List.takeWhile_cons, bne_iff_ne, hch, h1]
      · simp [List.dropWhile_cons, bne_iff_ne, hch, h2]

/-- Parsing one produced row recovers the day key and the count, provided
the key itself contains no comma. -/
theorem parseLine_rowOf (p : String × Nat) (hc : Char.ofNat 44 ∉ p.1.data) :
    parseLine (rowOf p).data = p := by
  rw [rowOf_data]
  obtain ⟨h1, h2⟩ := takeWhile_no_sep (Char.ofNat 44) p.1.data (natDigits p.2) hc
  have hcomma : Char.ofNat 44 = ',' := by decide
  rw [hcomma] at h1 h2
  simp only [parseLine, h1, h2, List.drop_succ_cons, List.drop_zero,
    digitsVal_natDigits, string_mk_data]

/-- Parsing the produced CSV recovers the sorted day-count rows whenever
the stored keys contain no comma and no newline (true of all day keys). -/
theorem parseCsv_createCsv (stats : PomodoroStats)
    (hw : ∀ p ∈ stats.byDay, Char.ofNat 44 ∉ p.1.data ∧ Char.ofNat 10 ∉ p.1.data) :
    parseCsv (createCsv stats) = sortByKey stats.byDay := by
  have hperm : (sortByKey stats.byDay).Perm stats.byDay :=
    List.perm_insertionSort byDayLe stats.byDay
  have hw2 : ∀ p ∈ sortByKey stats.byDay,
      Char.ofNat 44 ∉ p.1.data ∧ Char.ofNat 10 ∉ p.1.data :=
    fun p hp => hw p (hperm.subset hp)
  have hhdr : Char.ofNat 10 ∉ csvHeader.data := by decide
  have hlines : ∀ x ∈ ((sortByKey stats.byDay).map rowOf).map String.data,
      Char.ofNat 10 ∉ x := by
    intro x hx
    simp only [List.map_map, List.mem_map, Function.comp_def] at hx
    obtain ⟨p, hp, rfl⟩ := hx
    rw [rowOf_data]
    intro hmem
    rcases List.mem_append.mp hmem with h | h
    · exact (hw2 p hp).2 h
    · rcases List.mem_cons.mp h with h | h
      · exact absurd h (by decide)
      · exact (natDigits_no_sep p.2).2 h
  have hsplit : splitOnChar (Char.ofNat 10) (createCsv stats).data
      = csvHeader.data :: ((sortByKey stats.byDay).map rowOf).map String.data := by
    rw [show (createCsv stats).data
        = csvHeader.data ++ ((((sortByKey stats.byDay).map rowOf).map String.data).map
            fun x => Char.ofNat 10 :: x).flatten
      from intercalate_newline_data csvHeader ((sortByKey stats.byDay).map rowOf)]
    exact splitOnChar_flatten (Char.ofNat 10)
      (((sortByKey stats.byDay).map rowOf).map String.data) csvHeader.data hhdr hlines
  unfold parseCsv
  rw [hsplit]
  show (((sortByKey stats.byDay).map rowOf).map String.data).map parseLine
      = sortByKey stats.byDay
  rw [List.map_map, List.map_map]
  have hcong : (sortByKey stats.byDay).map ((parseLine ∘ String.data) ∘ rowOf)
      = (sortByKey stats.byDay).map id := by
    apply List.map_congr_left
    intro p hp
    exact parseLine_rowOf p (hw2 p hp).1
  rw [hcong, List.map_id]

/-! ## Claim C7: CSV export -/

/-- Concrete day map of the spec's export scenario, deliberately stored in
descending insertion order. -/
def exampleCsvStats : PomodoroStats :=
  { byDay := [("2024-01-02", 3), ("2024-01-01", 1)], history := [] }

/-- C7: the export is the header row followed by one `date,count` row per
stored day in ascending key order regardless of insertion order; it is a
pure function of the day map whose rows parse back to the stored counts
(lossless round-trip) whenever the keys are free of separators, as day
keys are; and the spec's concrete scenario produces exactly the stated
text. -/
theorem createCsv_spec (stats : PomodoroStats) :
    createCsv stats
        = String.intercalate "\n" (csvHeader :: (sortByKey stats.byDay).map rowOf)
    ∧ (sortByKey stats.byDay).Perm stats.byDay
    ∧ List.Sorted byDayLe (sortByKey stats.byDay)
    ∧ ((∀ p ∈ stats.byDay, Char.ofNat 44 ∉ p.1.data ∧ Char.ofNat 10 ∉ p.1.data) →
        parseCsv (createCsv stats) = sortByKey stats.byDay)
    ∧ createCsv exampleCsvStats
        = "Date,Pomodoros Completed\n2024-01-01,1\n2024-01-02,3" :=
  ⟨rfl, List.perm_insertionSort byDayLe stats.byDay,
    List.sorted_insertionSort byDayLe stats.byDay,
    parseCsv_createCsv stats, by decide⟩

/-- Witness for C7: the round-trip on the spec's concrete scenario map. -/
theorem createCsv_spec_witness :
    parseCsv (createCsv exampleCsvStats) = sortByKey exampleCsvStats.byDay :=
  (createCsv_spec exampleCsvStats).2.2.2.1 (by decide)

/-! ## Claim C3: reachable-state invariants

A configuration pairs the timer state with the currently saved settings.
Operations are the ones the page wires up: the one-second tick, the
completion transition (fired when `timeLeft` reaches 0), start/pause,
reset, and saving new settings (which triggers the recompute effect
exactly when one of the three duration fields changed, its dependency
array). Settings accepted through the dialog are always clamped to the
documented ranges, captured by `SettingsValid`. `timeLeft` is a `Nat`, so
the lower bound `0 ≤ secondsRemaining` of the claim holds by type. -/

/-- Settings as accepted by the input boundary: durations clamped to
`[1, 180]` minutes and the long-break interval at least 1. -/
def SettingsValid (s : PomodoroSettings) : Prop :=
  1 ≤ s.workDuration ∧ s.workDuration ≤ 180
    ∧ 1 ≤ s.shortBreakDuration ∧ s.shortBreakDuration ≤ 180
    ∧ 1 ≤ s.longBreakDuration ∧ s.longBreakDuration ≤ 180
    ∧ 1 ≤ s.longBreakInterval

instance : DecidablePred SettingsValid := fun s => by
  unfold SettingsValid; infer_instance

/-- Saving settings: the recompute effect of page.tsx lines 342-353 runs
exactly when one of its dependencies (the three duration fields)
changed. -/
def applySettingsOp (c : PomodoroState × PomodoroSettings) (s2 : PomodoroSettings) :
    PomodoroState × PomodoroSettings :=
  (if c.2.workDuration = s2.workDuration ∧ c.2.shortBreakDuration = s2.shortBreakDuration
      ∧ c.2.longBreakDuration = s2.longBreakDuration
    then c.1 else recomputeForSettings s2 c.1, s2)

/-- Initial configuration: fresh state with the default settings. -/
def initConfig : PomodoroState × PomodoroSettings :=
  (initialState, defaultSettings)

/-- Configurations reachable by any sequence of timer operations. -/
inductive Reachable : PomodoroState × PomodoroSettings → Prop
  | init : Reachable initConfig
  | tick {c} : Reachable c → Reachable (tick c.1, c.2)
  | complete {c} : Reachable c → c.1.timeLeft = 0 → Reachable (completePhase c.2 c.1, c.2)
  | toggle {c} : Reachable c → Reachable (toggleRunning c.2 c.1, c.2)
  | reset {c} : Reachable c → Reachable (resetTimer c.2, c.2)
  | settings {c} (s2 : PomodoroSettings) : Reachable c → SettingsValid s2 →
      Reachable (applySettingsOp c s2)

/-- Configurations reachable when settings are only saved while the timer
is paused. -/
inductive ReachableNR : PomodoroState × PomodoroSettings → Prop
  | init : ReachableNR initConfig
  | tick {c} : ReachableNR c → ReachableNR (tick c.1, c.2)
  | complete {c} : ReachableNR c → c.1.timeLeft = 0 →
      ReachableNR (completePhase c.2 c.1, c.2)
  | toggle {c} : ReachableNR c → ReachableNR (toggleRunning c.2 c.1, c.2)
  | reset {c} : ReachableNR c → ReachableNR (resetTimer c.2, c.2)
  | settings {c} (s2 : PomodoroSettings) : ReachableNR c → SettingsValid s2 →
      c.1.isRunning = false → ReachableNR (applySettingsOp c s2)

/-- Restricted reachability implies reachability. -/
theorem reachableNR_sub {c : PomodoroState × PomodoroSettings}
    (h : ReachableNR c) : Reachable c := by
  induction h with
  | init => exact Reachable.init
  | tick _ ih => exact Reachable.tick ih
  | complete _ hz ih => exact Reachable.complete ih hz
  | toggle _ ih => exact Reachable.toggle ih
  | reset _ ih => exact Reachable.reset ih
  | settings s2 _ hv _ ih => exact Reachable.settings s2 ih hv

/-- Valid settings give every phase a positive duration in minutes. -/
theorem sessionDurationMinutes_pos (t : SessionType) (s : PomodoroSettings)
    (h : SettingsValid s) : 1 ≤ sessionDurationMinutes t s := by
  obtain ⟨h1, -, h2, -, h3, -, -⟩ := h
  cases t <;> simpa [sessionDurationMinutes]

/-- A phase of at least one minute has at least 60 seconds. -/
theorem minutesToSeconds_ge_60 (m : Int) (h : 1 ≤ m) : 60 ≤ minutesToSeconds m := by
  simp only [minutesToSeconds]
  omega

/-- Phase completion always refills the countdown to the next phase's full
duration. -/
theorem completePhase_timeLeft (settings : PomodoroSettings) (s : PomodoroState) :
    (completePhase settings s).timeLeft
      = minutesToSeconds
          (sessionDurationMinutes (completePhase settings s).sessionType settings) := by
  cases h : s.sessionType <;> simp only [completePhase, h] <;> split <;> rfl

/-- Core safety invariant of all reachable configurations: saved settings
are valid, and an expired countdown is never running. -/
theorem reachable_inv {c : PomodoroState × PomodoroSettings} (h : Reachable c) :
    SettingsValid c.2 ∧ (c.1.timeLeft = 0 → c.1.isRunning = false) := by
  induction h with
  | init =>
      exact ⟨by decide, fun hz => absurd hz (by decide)⟩
  | @tick c hc ih =>
      refine ⟨ih.1, fun hz => ?_⟩
      unfold tick at hz ⊢
      split_ifs at hz ⊢ with h1 h2
      · simpa using h1
      · rfl
      · simp only at hz
        simp only [Bool.not_eq_true] at h1
        omega
  | @complete c hc hz ih =>
      refine ⟨ih.1, fun h2 => ?_⟩
      exfalso
      have h60 := minutesToSeconds_ge_60 _
        (sessionDurationMinutes_pos (completePhase c.2 c.1).sessionType c.2 ih.1)
      rw [completePhase_timeLeft c.2 c.1] at h2
      omega
  | @toggle c hc ih =>
      refine ⟨ih.1, fun h2 => ?_⟩
      unfold toggleRunning at h2 ⊢
      dsimp only at h2 ⊢
      split_ifs at h2 ⊢ with hcond
      · exfalso
        have h60 := minutesToSeconds_ge_60 _
          (sessionDurationMinutes_pos c.1.sessionType c.2 ih.1)
        simp only at h2
        omega
      · exfalso
        simp only at h2
        have hrun := ih.2 h2
        simp [h2, hrun] at hcond
  | @reset c hc ih =>
      exact ⟨ih.1, fun h2 => rfl⟩
  | @settings c s2 hc hv ih =>
      refine ⟨hv, fun h2 => ?_⟩
      unfold applySettingsOp at h2 ⊢
      split_ifs at h2 ⊢ with hcond
      · exact ih.2 h2
      · unfold recomputeForSettings at h2 ⊢
        split_ifs at h2 ⊢ with hrun
        · exact ih.2 h2
        · simpa using hrun

/-- Countdown bound for configurations whose settings were only saved
while paused: `timeLeft` never exceeds the current phase's full duration
under the current settings. -/
theorem reachableNR_bound {c : PomodoroState × PomodoroSettings} (h : ReachableNR c) :
    c.1.timeLeft ≤ minutesToSeconds (sessionDurationMinutes c.1.sessionType c.2) := by
  induction h with
  | init => decide
  | @tick c hc ih =>
      have h1 : (tick c.1).timeLeft ≤ c.1.timeLeft := by
        unfold tick
        split_ifs <;> simp
      have h2 : (tick c.1).sessionType = c.1.sessionType := by
        unfold tick
        split_ifs <;> rfl
      show (tick c.1).timeLeft
        ≤ minutesToSeconds (sessionDurationMinutes (tick c.1).sessionType c.2)
      rw [h2]
      exact le_trans h1 ih
  | @complete c hc hz ih =>
      exact le_of_eq (completePhase_timeLeft c.2 c.1)
  | @toggle c hc ih =>
      show (toggleRunning c.2 c.1).timeLeft
        ≤ minutesToSeconds (sessionDurationMinutes (toggleRunning c.2 c.1).sessionType c.2)
      unfold toggleRunning
      dsimp only
      split_ifs with hcond
      · simp
      · simpa using ih
  | @reset c hc ih =>
      show (resetTimer c.2).timeLeft
        ≤ minutesToSeconds (sessionDurationMinutes (resetTimer c.2).sessionType c.2)
      simp [resetTimer, sessionDurationMinutes]
  | @settings c s2 hc hv hrun ih =>
      show (applySettingsOp c s2).1.timeLeft
        ≤ minutesToSeconds (sessionDurationMinutes (applySettingsOp c s2).1.sessionType
            (applySettingsOp c s2).2)
      unfold applySettingsOp
      dsimp only
      split_ifs with hcond
      · obtain ⟨e1, e2, e3⟩ := hcond
        have hsame : sessionDurationMinutes c.1.sessionType s2
            = sessionDurationMinutes c.1.sessionType c.2 := by
          cases c.1.sessionType <;> simp [sessionDurationMinutes, e1, e2, e3]
        rw [hsame]
        exact ih
      · unfold recomputeForSettings
        rw [if_neg (by simp [hrun])]

/-- C3 counterexample: the claimed invariant fails on the code as stated.
Starting the timer on the default settings and then saving a 1-minute work
duration while running leaves 1500 seconds remaining against a 60-second
phase duration, because the recompute effect skips running timers. -/
def lowWorkSettings : PomodoroSettings :=
  { defaultSettings with workDuration := 1 }

/-- Reachable configuration violating the claimed upper bound. -/
def badConfig : PomodoroState × PomodoroSettings :=
  applySettingsOp (toggleRunning defaultSettings initialState, defaultSettings)
    lowWorkSettings

/-- C3 as stated is false: a reachable configuration (start, then save a
shorter work duration mid-run) has `secondsRemaining` above the current
phase duration. -/
theorem timer_invariants_counterexample :
    Reachable badConfig
    ∧ ¬ (badConfig.1.timeLeft
          ≤ minutesToSeconds
              (sessionDurationMinutes badConfig.1.sessionType badConfig.2)) := by
  constructor
  · exact Reachable.settings lowWorkSettings (Reachable.toggle Reachable.init) (by decide)
  · decide

/-- C3 amended: in every reachable configuration `secondsRemaining` is a
natural number (hence at least 0) and `running` is false whenever
`secondsRemaining = 0`; the upper bound
`secondsRemaining ≤ durationOf(phase, settings)` additionally holds in
every configuration reachable with settings saved only while paused (a
duration shortened mid-run keeps the old countdown until the next
completion, as the counterexample shows). -/
theorem timer_invariants :
    (∀ c, Reachable c → (c.1.timeLeft = 0 → c.1.isRunning = false))
    ∧ (∀ c, ReachableNR c →
        c.1.timeLeft ≤ minutesToSeconds (sessionDurationMinutes c.1.sessionType c.2)
          ∧ (c.1.timeLeft = 0 → c.1.isRunning = false)) :=
  ⟨fun _ h => (reachable_inv h).2,
   fun _ h => ⟨reachableNR_bound h, (reachable_inv (reachableNR_sub h)).2⟩⟩

/-- Ticking any number of times preserves reachability. -/
theorem reachable_tick_iter (n : Nat) (c : PomodoroState × PomodoroSettings)
    (h : Reachable c) : Reachable (tick^[n] c.1, c.2) := by
  induction n with
  | zero => simpa using h
  | succ k ih =>
      rw [Function.iterate_succ_apply']
      exact Reachable.tick ih

/-- Configuration used by the C3 witness: save a 1-minute work duration
while paused, start, and tick 60 times so the countdown expires. -/
def expiredConfig : PomodoroState × PomodoroSettings :=
  (tick^[60] (toggleRunning lowWorkSettings
      (recomputeForSettings lowWorkSettings initialState)),
   lowWorkSettings)

set_option maxRecDepth 8000 in
/-- Witness for the amended C3: the expired configuration is reachable,
has `timeLeft = 0`, and the invariant forces `running = false`; the
initial configuration satisfies the NR bound. -/
theorem timer_invariants_witness :
    expiredConfig.1.timeLeft = 0 ∧ expiredConfig.1.isRunning = false
      ∧ initConfig.1.timeLeft
          ≤ minutesToSeconds
              (sessionDurationMinutes initConfig.1.sessionType initConfig.2) := by
  have hr : Reachable expiredConfig := by
    have h1 : Reachable (applySettingsOp initConfig lowWorkSettings) :=
      Reachable.settings lowWorkSettings Reachable.init (by decide)
    have h2 : Reachable (toggleRunning (applySettingsOp initConfig lowWorkSettings).2
        (applySettingsOp initConfig lowWorkSettings).1,
        (applySettingsOp initConfig lowWorkSettings).2) := Reachable.toggle h1
    have h3 := reachable_tick_iter 60 _ h2
    exact h3
  exact ⟨by decide, timer_invariants.1 expiredConfig hr (by decide),
    (timer_invariants.2 initConfig ReachableNR.init).1⟩
